import Mathlib

/-!
Verification of the cytec relay-matrix driver (src/cytec.py) against its
natural-language specification.

The pure protocol/algorithm layer of the source is shallowly embedded here:

* `transpose`              — cytec.py line 80 (`list(map(list, zip(*x)))`);
* `relay_states`           — the byte-decoding dictionary, line 101;
* `status_rows` / `decode_status` — the status-decoding pipeline of
  `connections`, lines 103-105;
* `set_connection`, `latch`, `unlatch` — lines 114-120;
* `splitsum`               — the greedy packer, lines 123-129;
* `commands_of`, `grouped_commands_nested_of`, `grouped_commands_of`,
  `packs_of_tokens`, `packed_commands_of_tokens`, `packed_commands_of` —
  the diff / serialize / pack pipeline of `set_connections`, lines 141-155;
* `verify_after_result`    — the tail of the verify branch, lines 166-180.

Matrices in the claims under study are fully populated, so the diffing and
application operations are embedded over `List (List Bool)`; the decoder,
whose cells can be unknown, is embedded over `Option Bool` cells exactly as
the source type `CytecConnections = list[list[Optional[bool]]]`.
-/

/-- Embeds `MAX_COMMAND_LENGTH` (cytec.py line 25). -/
def MAX_COMMAND_LENGTH : Nat := 60

/-- Embeds `transpose` (cytec.py line 80): `list(map(list, zip(*x)))`.
Python `zip` stops at the shortest row; the fuel is the length of the first
row and the loop also stops as soon as some row is exhausted, which together
realize exactly the minimum-length cutoff of `zip`. -/
def transposeFuel : Nat → List (List α) → List (List α)
  | 0, _ => []
  | k + 1, xss =>
    if xss.all (fun r => !r.isEmpty) then
      (xss.filterMap List.head?) :: transposeFuel k (xss.map List.tail)
    else []

/-- Embeds `transpose` (cytec.py line 80); `zip(*[])` is empty. -/
def transpose (xss : List (List α)) : List (List α) :=
  match xss with
  | [] => []
  | r :: rs => transposeFuel r.length (r :: rs)

/-- Embeds the decoding dictionary `relay_states = {b"0"[0]: False, b"1"[0]: True}`
together with the lookup `relay_states.get(b, None)` (cytec.py lines 101, 104):
byte 48 is ASCII `0`, byte 49 is ASCII `1`, every other byte decodes to `none`. -/
def relay_states (b : Nat) : Option Bool :=
  if b = 48 then some false else if b = 49 then some true else none

/-- Embeds the pre-transpose grid of `connections` (cytec.py lines 103-105):
`[[relay_states.get(b, None) for b in columns] for columns in status.split(b"\r")[:-1]]`.
The status bytes are modelled as their numeric values; the terminator `\r` is 13. -/
def status_rows (status : List Nat) : List (List (Option Bool)) :=
  ((status.splitOn 13).dropLast).map (fun columns => columns.map relay_states)

/-- Embeds `new_connections` as computed in `connections` (cytec.py lines 103-105):
the transpose of the per-output rows. -/
def decode_status (status : List Nat) : List (List (Option Bool)) :=
  transpose (status_rows status)

/-- Embeds `set_connection` (cytec.py lines 114-117) on fully populated
matrices: a copy of `c` with cell (`module`, `output`) replaced by `value`.
The source raises `IndexError` out of range; the claims only use in-range
indices, where `List.set` agrees with the source. -/
def set_connection (c : List (List Bool)) (module output : Nat) (value : Bool) :
    List (List Bool) :=
  c.set module ((c.getD module []).set output value)

/-- Embeds `latch = partial(set_connection, value = True)` (cytec.py line 119). -/
def latch (c : List (List Bool)) (module output : Nat) : List (List Bool) :=
  set_connection c module output true

/-- Embeds `unlatch = partial(set_connection, value = False)` (cytec.py line 120). -/
def unlatch (c : List (List Bool)) (module output : Nat) : List (List Bool) :=
  set_connection c module output false

/-- Embeds the loop of `splitsum` (cytec.py lines 123-129); `cur` is the
running last bin `result[-1]` and `t` its running cost, and the returned list
is the finished bins followed by the running bin. -/
def splitsumAux (maximum_sum : Nat) (cost : α → Nat) :
    List α → List α → Nat → List (List α)
  | cur, [], _ => [cur]
  | cur, x :: xs, t =>
    if t + cost x > maximum_sum then
      cur :: splitsumAux maximum_sum cost [x] xs (cost x)
    else
      splitsumAux maximum_sum cost (cur ++ [x]) xs (t + cost x)

/-- Embeds `splitsum(xs, maximum_sum, on)` (cytec.py lines 123-129); the
keyword argument `on` of the source is named `cost` here. It starts from
`result = [[]]`, `t = 0`. -/
def splitsum (xs : List α) (maximum_sum : Nat) (cost : α → Nat) : List (List α) :=
  splitsumAux maximum_sum cost [] xs 0

/-- Embeds `commands` (cytec.py lines 141-143): per module row, the list of
`("L" if q else "U", i, j)` over the outputs where current and target differ. -/
def commands_of (connections new_connections : List (List Bool)) :
    List (List (String × Nat × Nat)) :=
  ((connections.zip new_connections).enum).map (fun (i, xs, ys) =>
    ((xs.zip ys).enum).filterMap (fun (j, p, q) =>
      if Bool.xor p q then some ((if q then "L" else "U"), i, j) else none))

/-- Embeds `grouped_commands_nested` (cytec.py lines 145-147): within one
module row, the first operation serializes as `{op}{module} {output}` and
every later one as the shorthand `{op}{output}`. -/
def grouped_commands_nested_of (connections new_connections : List (List Bool)) :
    List (List String) :=
  (commands_of connections new_connections).map (fun output_commands =>
    (output_commands.enum).map (fun (n, command, i, j) =>
      if n == 0 then s!"{command}{i} {j}" else s!"{command}{j}"))

/-- Embeds `grouped_commands` (cytec.py line 149): the flattened token list. -/
def grouped_commands_of (connections new_connections : List (List Bool)) :
    List String :=
  (grouped_commands_nested_of connections new_connections).flatten

/-- Embeds `packs` (cytec.py lines 153-154): each token is zipped with its
cost `len(c) + 1` (one byte for the `;` separator or final terminator) and the
pairs are packed greedily by `splitsum` against `MAX_COMMAND_LENGTH`. -/
def packs_of_tokens (grouped_commands : List String) : List (List (String × Nat)) :=
  splitsum (grouped_commands.zip (grouped_commands.map (fun c => c.length + 1)))
    MAX_COMMAND_LENGTH (fun x => x.2)

/-- Embeds `packed_commands` (cytec.py line 155): each pack joined with `;`. -/
def packed_commands_of_tokens (grouped_commands : List String) : List String :=
  (packs_of_tokens grouped_commands).map
    (fun pack => String.intercalate ";" (pack.map (fun x => x.1)))

/-- The frames as token lists (the packs of cytec.py line 154 with the cost
components dropped), used to state frame-level invariants. -/
def token_frames (grouped_commands : List String) : List (List String) :=
  (packs_of_tokens grouped_commands).map (fun pack => pack.map (fun x => x.1))

/-- The full diff-serialize-pack pipeline of `set_connections`
(cytec.py lines 141-155), producing the frame strings that are written. -/
def packed_commands_of (connections new_connections : List (List Bool)) :
    List String :=
  packed_commands_of_tokens (grouped_commands_of connections new_connections)

/-- The full pipeline at the granularity of token lists per frame. -/
def pipeline_frames (connections new_connections : List (List Bool)) :
    List (List String) :=
  token_frames (grouped_commands_of connections new_connections)

/-- Embeds the verify branch of `set_connections` (cytec.py lines 166-180):
after the settling wait the post-switch matrix is re-read and returned
unconditionally. The comparison of `cpost.state.connections` against
`new_connections` and the `CytecSwitchingError` raise are commented out in
the source (lines 171-172), so no error value is ever produced. -/
def verify_after_result (cpost_connections : List (List (Option Bool)))
    (new_connections : List (List (Option Bool))) :
    Except Unit (List (List (Option Bool))) :=
  Except.ok cpost_connections

/-- Spec-side definition of the diff, written from the words of the spec
(section 4.1): for every (module, output) in row-major order where the
current and target cells differ, one operation tagged `L` when the target
cell is connected and `U` otherwise. -/
def diffSpec (modules outputs : Nat) (cur tgt : List (List Bool)) :
    List (String × Nat × Nat) :=
  (List.range modules).flatMap (fun i =>
    (List.range outputs).filterMap (fun j =>
      if (cur.getD i []).getD j false ≠ (tgt.getD i []).getD j false then
        some ((if (tgt.getD i []).getD j false then "L" else "U"), i, j)
      else none))

/-- Cell access with the defaults used throughout the development. -/
def getCell (c : List (List Bool)) (i j : Nat) : Bool :=
  (c.getD i []).getD j false

/-- Applying a list of diff operations in order (cytec.py lines 114-120):
an `L` operation latches its cell, any other tag unlatches it. -/
def applyOps (c : List (List Bool)) (ops : List (String × Nat × Nat)) :
    List (List Bool) :=
  ops.foldl (fun m op => set_connection m op.2.1 op.2.2 (op.1 == "L")) c

/-- A 61-character token, exceeding `MAX_COMMAND_LENGTH` on its own. -/
def overlong_token : String := String.mk (List.replicate 61 'a')

/-- A 60-character token whose framed cost `len + 1` is 61. -/
def limit_token : String := String.mk (List.replicate 60 'a')

/-- Auxiliary: `zip` of a list with itself pairs every element with itself. -/
theorem zip_self_eq_map (xs : List α) : xs.zip xs = xs.map (fun a => (a, a)) := by
  induction xs with
  | nil => rfl
  | cons x xs ih => simp [List.zip_cons_cons, ih]

/-- Auxiliary: the second component of an enumerated entry is a list member. -/
theorem snd_mem_of_mem_enum {l : List β} {x : Nat × β} (h : x ∈ l.enum) : x.2 ∈ l := by
  have h2 : x.2 ∈ List.map Prod.snd (List.enumFrom 0 l) := List.mem_map_of_mem Prod.snd h
  rwa [List.enumFrom_map_snd] at h2

/-- Auxiliary: diffing a matrix against itself yields no operation in any row. -/
theorem commands_self_rows_nil (cur : List (List Bool)) :
    ∀ row ∈ commands_of cur cur, row = [] := by
  intro row hrow
  unfold commands_of at hrow
  obtain ⟨⟨i, xs, ys⟩, hmem, hrow⟩ := List.mem_map.1 hrow
  subst hrow
  rw [List.filterMap_eq_nil_iff]
  intro ⟨j, p, q⟩ hjpq
  have hpq : p = q := by
    have h2 : (p, q) ∈ xs.zip ys := snd_mem_of_mem_enum hjpq
    have h3 : xs = ys := by
      have h4 : (xs, ys) ∈ (cur.zip cur) := snd_mem_of_mem_enum hmem
      rw [zip_self_eq_map] at h4
      obtain ⟨a, _, ha⟩ := List.mem_map.1 h4
      simp only [Prod.mk.injEq] at ha
      exact ha.1.symm.trans ha.2
    subst h3
    rw [zip_self_eq_map] at h2
    obtain ⟨a, _, ha⟩ := List.mem_map.1 h2
    simp only [Prod.mk.injEq] at ha
    exact ha.1.symm.trans ha.2
  subst hpq
  simp

/-- Auxiliary: serializing and flattening the self-diff gives no token. -/
theorem grouped_commands_self_nil (cur : List (List Bool)) :
    grouped_commands_of cur cur = [] := by
  unfold grouped_commands_of grouped_commands_nested_of
  rw [List.flatten_eq_nil_iff]
  intro l hl
  obtain ⟨row, hrow, hl⟩ := List.mem_map.1 hl
  subst hl
  rw [commands_self_rows_nil cur row hrow]
  rfl

/-- Auxiliary: flattening the bins of `splitsumAux` recovers the running bin
followed by the remaining input; the greedy packer neither drops, duplicates,
nor reorders elements. -/
theorem splitsumAux_flatten (maximum_sum : Nat) (cost : α → Nat) :
    ∀ (xs cur : List α) (t : Nat),
      (splitsumAux maximum_sum cost cur xs t).flatten = cur ++ xs := by
  intro xs
  induction xs with
  | nil =>
    intro cur t
    simp [splitsumAux]
  | cons x xs ih =>
    intro cur t
    by_cases h : t + cost x > maximum_sum
    · simp [splitsumAux, h, ih]
    · simp [splitsumAux, h, ih]

/-- Auxiliary: flattening all frames of `splitsum` recovers the input. -/
theorem splitsum_flatten (xs : List α) (maximum_sum : Nat) (cost : α → Nat) :
    (splitsum xs maximum_sum cost).flatten = xs := by
  unfold splitsum
  rw [splitsumAux_flatten]
  rfl

/-- Auxiliary: if every element fits on its own and the running bin is within
budget, every bin produced by `splitsumAux` stays within budget. -/
theorem splitsumAux_sum_le (maximum_sum : Nat) (cost : α → Nat) :
    ∀ (xs cur : List α) (t : Nat),
      (∀ x ∈ xs, cost x ≤ maximum_sum) →
      (cur.map cost).sum = t →
      t ≤ maximum_sum →
      ∀ bin ∈ splitsumAux maximum_sum cost cur xs t,
        (bin.map cost).sum ≤ maximum_sum := by
  intro xs
  induction xs with
  | nil =>
    intro cur t _ hsum ht bin hbin
    simp only [splitsumAux, List.mem_singleton] at hbin
    subst hbin
    omega
  | cons x xs ih =>
    intro cur t hfit hsum ht bin hbin
    by_cases h : t + cost x > maximum_sum
    · simp only [splitsumAux, if_pos h, List.mem_cons] at hbin
      rcases hbin with hbin | hbin
      · subst hbin; omega
      · exact ih [x] (cost x) (fun y hy => hfit y (List.mem_cons_of_mem x hy))
          (by simp) (hfit x (List.mem_cons_self x xs)) bin hbin
    · simp only [splitsumAux, if_neg h] at hbin
      exact ih (cur ++ [x]) (t + cost x)
        (fun y hy => hfit y (List.mem_cons_of_mem x hy))
        (by simp [hsum]) (by omega) bin hbin

/-- Auxiliary: zipping a token list with its mapped costs pairs every token
with its own cost. -/
theorem zip_with_costs (tokens : List String) :
    tokens.zip (tokens.map (fun c => c.length + 1)) =
      tokens.map (fun a => (a, a.length + 1)) := by
  induction tokens with
  | nil => rfl
  | cons x xs ih => simp [ih]

/-- C9: with modules = 2 and outputs = 2, decoding the 6-byte status response
`10\r01\r` splits on the terminator, discards the trailing empty segment,
yields per-output rows `[true, false]` and `[false, true]`, and after
transposition returns the module-major matrix `[[true, false], [false, true]]`. -/
theorem C9_status_decode_scenario :
    ([49, 48, 13, 48, 49, 13] : List Nat).splitOn 13 = [[49, 48], [48, 49], []] ∧
    status_rows [49, 48, 13, 48, 49, 13] =
      [[some true, some false], [some false, some true]] ∧
    decode_status [49, 48, 13, 48, 49, 13] =
      [[some true, some false], [some false, some true]] := by
  decide

/-- C1: the claim states that a verifying switch compares the freshly observed
matrix against the requested target and raises on mismatch. The source
computes the post-switch matrix but the comparison and the raise are commented
out (cytec.py lines 171-172): at an observed matrix `[[disconnected]]` that
differs from the target `[[connected]]`, the verify branch still returns the
observed matrix and never produces an error. -/
theorem C1_verify_not_enforced :
    verify_after_result [[some false]] [[some true]] = Except.ok [[some false]] ∧
    ([[some false]] : List (List (Option Bool))) ≠ [[some true]] :=
  ⟨rfl, by decide⟩

/-- C3 counterexample: the claim states that the status decoder fails with
`MalformedStatusResponse` on any non-terminator byte other than the bytes for
`0` and `1`, so a populated matrix never holds an unknown cell. Decoding the
status line holding the single byte 88 (ASCII `X`) instead returns the matrix
`[[none]]`: the decoder maps the unexpected byte to the unknown cell `none`
and no failure occurs. -/
theorem C3_counterexample_unknown_cell :
    decode_status [88, 13] = [[none]] := by
  decide

/-- C4: the claim states that the packer raises `CommandTooLong` when a single
token already exceeds `MAX_COMMAND_LENGTH`. The source has no such check: for
a 61-character token the packer returns normally, emitting an empty leading
frame and then the overlong token as a frame of its own, whose framed cost 62
exceeds the limit of 60. -/
theorem C4_overlong_token_not_rejected :
    packs_of_tokens [overlong_token] = [[], [(overlong_token, 62)]] ∧
    packed_commands_of_tokens [overlong_token] = ["", overlong_token] ∧
    overlong_token.length > MAX_COMMAND_LENGTH := by
  decide

/-- C5 counterexample: the claim states that every frame produced by the
packer satisfies the length bound for every input token list. For the single
60-character token, whose framed cost is 61, the packer emits the frame
`[limit_token]` whose cost sum 61 exceeds `MAX_COMMAND_LENGTH = 60`. -/
theorem C5_counterexample_frame_exceeds_limit :
    token_frames [limit_token] = [[], [limit_token]] ∧
    (([limit_token].map (fun tok => tok.length + 1)).sum = 61) ∧
    61 > MAX_COMMAND_LENGTH := by
  decide

/-- C2: the claim states that packing never splits the operation run of one
module across frames, so every shorthand continuation token `{op}{output}`
stays in the frame of the token `{op}{module} {output}` that introduced its
module. For one module with 20 outputs, all switching from disconnected to
connected, the pipeline emits two frames: the second frame consists of the
continuation tokens `L17`, `L18`, `L19` only — none of its tokens carries a
module id (none contains a space) — while the introducing token `L0 0` of
their module sits in the first frame. -/
theorem C2_run_split_across_frames :
    pipeline_frames [List.replicate 20 false] [List.replicate 20 true] =
      [["L0 0", "L1", "L2", "L3", "L4", "L5", "L6", "L7", "L8", "L9", "L10",
        "L11", "L12", "L13", "L14", "L15", "L16"],
       ["L17", "L18", "L19"]] ∧
    (["L17", "L18", "L19"] : List String).all
      (fun tok => tok.data.all (fun ch => ch ≠ ' ')) = true := by
  decide

/-- C10: when no cell differs between the current and the target matrix, the
token list is empty, the packer returns exactly one frame with zero tokens,
and the switch path joins it into the single empty command string which is
then written to the transport. -/
theorem C10_empty_diff_single_empty_frame (cur : List (List Bool)) :
    grouped_commands_of cur cur = [] ∧
    packs_of_tokens (grouped_commands_of cur cur) = [[]] ∧
    packed_commands_of cur cur = [""] := by
  have h : grouped_commands_of cur cur = [] := grouped_commands_self_nil cur
  refine ⟨h, ?_, ?_⟩
  · rw [h]
    rfl
  · unfold packed_commands_of
    rw [h]
    rfl

/-- C6: for every list of input tokens, concatenating the packed frames in
emission order reproduces exactly the original token list, so every token
appears in exactly one frame and in its original position. -/
theorem C6_pack_preserves_token_order (tokens : List String) :
    (token_frames tokens).flatten = tokens := by
  unfold token_frames packs_of_tokens
  rw [← List.map_flatten, splitsum_flatten, zip_with_costs, List.map_map]
  exact List.map_id tokens

/-- C5 (amended): provided every single input token fits, that is
`len(token) + 1 ≤ MAX_COMMAND_LENGTH`, every frame produced by the packer
satisfies `sum (len(token) + 1) ≤ MAX_COMMAND_LENGTH`; without that proviso a
lone overlong token is emitted as a frame exceeding the limit. -/
theorem C5_frames_within_limit (tokens : List String)
    (hfit : ∀ tok ∈ tokens, tok.length + 1 ≤ MAX_COMMAND_LENGTH) :
    ∀ frame ∈ token_frames tokens,
      (frame.map (fun tok => tok.length + 1)).sum ≤ MAX_COMMAND_LENGTH := by
  intro frame hframe
  unfold token_frames at hframe
  obtain ⟨pack, hpack, rfl⟩ := List.mem_map.1 hframe
  have hzip := zip_with_costs tokens
  have hsnd : ∀ x ∈ pack, x.2 = x.1.length + 1 ∧ x.1 ∈ tokens := by
    intro x hx
    have hxz : x ∈ tokens.zip (tokens.map (fun c => c.length + 1)) := by
      have hflat := List.mem_flatten_of_mem hpack hx
      rwa [show packs_of_tokens tokens =
        splitsum (tokens.zip (tokens.map (fun c => c.length + 1)))
          MAX_COMMAND_LENGTH (fun x => x.2) from rfl, splitsum_flatten] at hflat
    rw [hzip] at hxz
    obtain ⟨a, ha, rfl⟩ := List.mem_map.1 hxz
    exact ⟨rfl, ha⟩
  have hsum : ((pack.map (fun x => x.2)).sum ≤ MAX_COMMAND_LENGTH) := by
    unfold packs_of_tokens splitsum at hpack
    refine splitsumAux_sum_le MAX_COMMAND_LENGTH (fun x => x.2)
      (tokens.zip (tokens.map (fun c => c.length + 1))) [] 0 ?_ rfl
      (Nat.zero_le _) pack hpack
    intro x hx
    rw [hzip] at hx
    obtain ⟨a, ha, rfl⟩ := List.mem_map.1 hx
    exact hfit a ha
  calc ((pack.map (fun x => x.1)).map (fun tok => tok.length + 1)).sum
      = (pack.map (fun x => x.2)).sum := by
        rw [List.map_map]
        congr 1
        apply List.map_congr_left
        intro x hx
        exact ((hsnd x hx).1).symm
    _ ≤ MAX_COMMAND_LENGTH := hsum

/-- Witness for C5 (amended) at the token list of the specification scenario:
both tokens fit, and both produced frames satisfy the length bound. -/
theorem C5_frames_within_limit_witness :
    (∀ tok ∈ (["L0 0", "L1 1"] : List String), tok.length + 1 ≤ MAX_COMMAND_LENGTH) ∧
    (∀ frame ∈ token_frames ["L0 0", "L1 1"],
      (frame.map (fun tok => tok.length + 1)).sum ≤ MAX_COMMAND_LENGTH) :=
  ⟨by decide, C5_frames_within_limit ["L0 0", "L1 1"] (by decide)⟩

/-- Auxiliary: `enum` is `enumFrom 0`. -/
theorem enum_eq_enumFrom (l : List α) : l.enum = l.enumFrom 0 := rfl

/-- Auxiliary row lemma: the per-row diff comprehension of cytec.py line 141-143,
enumerated from `j0`, equals the specification form indexed over `range'`. -/
theorem row_commands_from_spec (i : Nat) :
    ∀ (xs ys : List Bool) (j0 : Nat),
      ((xs.zip ys).enumFrom j0).filterMap (fun (j, p, q) =>
          if Bool.xor p q then some ((if q then "L" else "U"), i, j) else none)
      = (List.range' j0 (min xs.length ys.length)).filterMap (fun j =>
          if xs.getD (j - j0) false ≠ ys.getD (j - j0) false then
            some ((if ys.getD (j - j0) false then "L" else "U"), i, j)
          else none) := by
  intro xs
  induction xs with
  | nil =>
    intro ys j0
    simp
  | cons p xs ih =>
    intro ys j0
    cases ys with
    | nil => simp
    | cons q ys =>
      rw [List.zip_cons_cons, List.enumFrom_cons, List.filterMap_cons, ih ys (j0 + 1)]
      have hlen : min (p :: xs).length (q :: ys).length = min xs.length ys.length + 1 := by
        simp [List.length_cons, Nat.succ_min_succ]
      rw [hlen, List.range'_succ, List.filterMap_cons]
      have htail :
          (List.range' (j0 + 1) (min xs.length ys.length)).filterMap (fun j =>
            if xs.getD (j - (j0 + 1)) false ≠ ys.getD (j - (j0 + 1)) false then
              some ((if ys.getD (j - (j0 + 1)) false then "L" else "U"), i, j)
            else none)
          = (List.range' (j0 + 1) (min xs.length ys.length)).filterMap (fun j =>
            if (p :: xs).getD (j - j0) false ≠ (q :: ys).getD (j - j0) false then
              some ((if (q :: ys).getD (j - j0) false then "L" else "U"), i, j)
            else none) := by
        apply List.filterMap_congr
        intro j hj
        have hge : j0 + 1 ≤ j := by
          rcases List.mem_range'.1 hj with ⟨k, _, rfl⟩
          omega
        have h1 : j - j0 = (j - (j0 + 1)) + 1 := by omega
        simp only [h1, List.getD_cons_succ]
      rw [htail]
      cases p <;> cases q <;> simp [Nat.sub_self]

/-- Auxiliary module lemma: flattening the per-row diff comprehensions of
cytec.py lines 141-143, with the outer enumeration starting at `i0`, equals a
row-major `flatMap` over module indices with rows fetched by position. -/
theorem commands_of_enumFrom_spec :
    ∀ (cur tgt : List (List Bool)) (i0 : Nat),
      (((cur.zip tgt).enumFrom i0).map (fun (i, xs, ys) =>
          ((xs.zip ys).enum).filterMap (fun (j, p, q) =>
            if Bool.xor p q then some ((if q then "L" else "U"), i, j) else none))).flatten
      = (List.range' i0 (min cur.length tgt.length)).flatMap (fun i =>
          (((cur.getD (i - i0) []).zip (tgt.getD (i - i0) [])).enum).filterMap
            (fun (j, p, q) =>
              if Bool.xor p q then some ((if q then "L" else "U"), i, j) else none)) := by
  intro cur
  induction cur with
  | nil =>
    intro tgt i0
    simp
  | cons r cur ih =>
    intro tgt i0
    cases tgt with
    | nil => simp
    | cons s tgt =>
      rw [List.zip_cons_cons, List.enumFrom_cons, List.map_cons, List.flatten_cons,
        ih tgt (i0 + 1)]
      have hlen : min (r :: cur).length (s :: tgt).length = min cur.length tgt.length + 1 := by
        simp [List.length_cons, Nat.succ_min_succ]
      rw [hlen, List.range'_succ, List.flatMap_cons]
      have htail :
          (List.range' (i0 + 1) (min cur.length tgt.length)).flatMap (fun i =>
            (((cur.getD (i - (i0 + 1)) []).zip (tgt.getD (i - (i0 + 1)) [])).enum).filterMap
              (fun (j, p, q) =>
                if Bool.xor p q then some ((if q then "L" else "U"), i, j) else none))
          = (List.range' (i0 + 1) (min cur.length tgt.length)).flatMap (fun i =>
            ((((r :: cur).getD (i - i0) []).zip (((s :: tgt).getD (i - i0) []))).enum).filterMap
              (fun (j, p, q) =>
                if Bool.xor p q then some ((if q then "L" else "U"), i, j) else none)) := by
        apply List.flatMap_congr
        intro i hi
        have hge : i0 + 1 ≤ i := by
          rcases List.mem_range'.1 hi with ⟨k, _, rfl⟩
          omega
        have h1 : i - i0 = (i - (i0 + 1)) + 1 := by omega
        simp only [h1, List.getD_cons_succ]
      rw [htail]
      simp [Nat.sub_self]

/-- Auxiliary: `getD` agrees with `getElem` in range. -/
theorem getD_eq_getElem_of_lt {l : List α} {n : Nat} (h : n < l.length) (d : α) :
    l.getD n d = l[n] := by
  rw [List.getD_eq_getElem?_getD, List.getElem?_eq_getElem h]
  rfl

/-- Auxiliary: `getD` out of range returns the default. -/
theorem getD_eq_default_of_le {l : List α} {n : Nat} (h : l.length ≤ n) (d : α) :
    l.getD n d = d := by
  rw [List.getD_eq_getElem?_getD, List.getElem?_eq_none h]
  rfl

/-- Auxiliary: a row fetched by `getD` in range is a member of the matrix. -/
theorem getD_mem_of_lt {l : List α} {n : Nat} (h : n < l.length) (d : α) :
    l.getD n d ∈ l := by
  rw [getD_eq_getElem_of_lt h]
  exact List.getElem_mem h

/-- Auxiliary: under equal matrix dimensions the flattened diff of the source
(cytec.py lines 141-143) equals the row-major specification diff. -/
theorem diff_flatten_eq_diffSpec (cur tgt : List (List Bool)) (M O : Nat)
    (hc : cur.length = M) (ht : tgt.length = M)
    (hcr : ∀ r ∈ cur, r.length = O) (htr : ∀ r ∈ tgt, r.length = O) :
    (commands_of cur tgt).flatten = diffSpec M O cur tgt := by
  unfold commands_of diffSpec
  rw [enum_eq_enumFrom, commands_of_enumFrom_spec cur tgt 0]
  rw [hc, ht, Nat.min_self, ← List.range_eq_range']
  apply List.flatMap_congr
  intro i hi
  have hiM : i < M := List.mem_range.1 hi
  simp only [Nat.sub_zero]
  rw [enum_eq_enumFrom, row_commands_from_spec i (cur.getD i []) (tgt.getD i []) 0]
  have hrowc : (cur.getD i []).length = O := hcr _ (getD_mem_of_lt (hc ▸ hiM) [])
  have hrowt : (tgt.getD i []).length = O := htr _ (getD_mem_of_lt (ht ▸ hiM) [])
  rw [hrowc, hrowt, Nat.min_self, ← List.range_eq_range']
  apply List.filterMap_congr
  intro j hj
  simp only [Nat.sub_zero]

/-- C7: for equally dimensioned, fully populated matrices, the diff emits
exactly one relay operation per differing cell — tagged `L` (latch) when the
target cell is connected and `U` (unlatch) otherwise — in row-major order by
module and then by output, and no operation for any equal cell: the flattened
source diff equals the specification diff. -/
theorem C7_diff_matches_spec (cur tgt : List (List Bool)) (M O : Nat)
    (hc : cur.length = M) (ht : tgt.length = M)
    (hcr : ∀ r ∈ cur, r.length = O) (htr : ∀ r ∈ tgt, r.length = O) :
    (commands_of cur tgt).flatten = diffSpec M O cur tgt :=
  diff_flatten_eq_diffSpec cur tgt M O hc ht hcr htr

/-- Witness for C7 at the specification scenario: modules = 2, outputs = 2,
current all-disconnected, target `[[true, false], [false, true]]`; the diff
is `[("L", 0, 0), ("L", 1, 1)]` and the pipeline packs it into the single
frame `L0 0;L1 1` of length 9. -/
theorem C7_diff_matches_spec_witness :
    ((∀ r ∈ ([[false, false], [false, false]] : List (List Bool)), r.length = 2) ∧
     (∀ r ∈ ([[true, false], [false, true]] : List (List Bool)), r.length = 2)) ∧
    ((commands_of [[false, false], [false, false]] [[true, false], [false, true]]).flatten
      = diffSpec 2 2 [[false, false], [false, false]] [[true, false], [false, true]]) ∧
    diffSpec 2 2 [[false, false], [false, false]] [[true, false], [false, true]]
      = [("L", 0, 0), ("L", 1, 1)] ∧
    packed_commands_of [[false, false], [false, false]] [[true, false], [false, true]]
      = ["L0 0;L1 1"] ∧
    ("L0 0;L1 1" : String).length = 9 :=
  ⟨⟨by decide, by decide⟩,
    C7_diff_matches_spec [[false, false], [false, false]] [[true, false], [false, true]]
      2 2 rfl rfl (by decide) (by decide),
    by decide, by decide, by decide⟩

/-- C3 (amended): the status decoder maps byte 48 (ASCII `0`) to disconnected
and byte 49 (ASCII `1`) to connected, and maps any other non-terminator byte
to the unknown cell `none` without failing: a status line carrying one such
byte decodes to a matrix that contains an unknown cell. -/
theorem C3_nonstatus_bytes_decode_unknown (b : Nat) (h13 : b ≠ 13)
    (h48 : b ≠ 48) (h49 : b ≠ 49) :
    decode_status [b, 13] = [[none]] ∧
    relay_states 48 = some false ∧ relay_states 49 = some true := by
  refine ⟨?_, by decide, by decide⟩
  have hsplit : ([b, 13] : List Nat).splitOn 13 = [[b], []] := by
    simp [List.splitOn, List.splitOnP_cons, List.splitOnP_nil, h13]
  unfold decode_status status_rows
  rw [hsplit]
  simp [relay_states, h48, h49, transpose, transposeFuel]

/-- Witness for C3 (amended) at the byte 88 (ASCII `X`). -/
theorem C3_nonstatus_bytes_decode_unknown_witness :
    ((88 : Nat) ≠ 13 ∧ (88 : Nat) ≠ 48 ∧ (88 : Nat) ≠ 49) ∧
    (decode_status [88, 13] = [[none]] ∧
      relay_states 48 = some false ∧ relay_states 49 = some true) :=
  ⟨by decide, C3_nonstatus_bytes_decode_unknown 88 (by decide) (by decide) (by decide)⟩

/-- Auxiliary: `getD` after `set` at the same in-range index. -/
theorem getD_set_self {l : List α} {i : Nat} (h : i < l.length) (a d : α) :
    (l.set i a).getD i d = a := by
  rw [List.getD_eq_getElem?_getD, List.getElem?_set_self h]
  rfl

/-- Auxiliary: `getD` after `set` at a different index. -/
theorem getD_set_ne {l : List α} {i k : Nat} (h : i ≠ k) (a d : α) :
    (l.set i a).getD k d = l.getD k d := by
  rw [List.getD_eq_getElem?_getD, List.getElem?_set_ne h, ← List.getD_eq_getElem?_getD]

/-- Auxiliary: `set_connection` preserves the number of modules. -/
theorem set_connection_length (c : List (List Bool)) (i j : Nat) (v : Bool) :
    (set_connection c i j v).length = c.length := by
  simp [set_connection]

/-- Auxiliary: `set_connection` preserves the length of every row. -/
theorem set_connection_row_length (c : List (List Bool)) (i j : Nat) (v : Bool)
    (k : Nat) :
    ((set_connection c i j v).getD k []).length = (c.getD k []).length := by
  unfold set_connection
  by_cases hik : i = k
  · subst hik
    by_cases hi : i < c.length
    · rw [getD_set_self hi]
      simp
    · rw [List.set_eq_of_length_le (Nat.le_of_not_lt hi)]
  · rw [getD_set_ne hik]

/-- Auxiliary: `set_connection` writes its value at the addressed cell. -/
theorem getCell_set_self {c : List (List Bool)} {i j : Nat}
    (hi : i < c.length) (hj : j < (c.getD i []).length) (v : Bool) :
    getCell (set_connection c i j v) i j = v := by
  unfold getCell set_connection
  rw [getD_set_self hi, getD_set_self hj]

/-- Auxiliary: `set_connection` leaves every other cell unchanged. -/
theorem getCell_set_other {c : List (List Bool)} {i j a b : Nat} (v : Bool)
    (hne : ¬(i = a ∧ j = b)) :
    getCell (set_connection c i j v) a b = getCell c a b := by
  unfold getCell set_connection
  by_cases hia : i = a
  · subst hia
    have hjb : j ≠ b := fun hh => hne ⟨rfl, hh⟩
    by_cases hi : i < c.length
    · rw [getD_set_self hi, getD_set_ne hjb]
    · rw [List.set_eq_of_length_le (Nat.le_of_not_lt hi)]
  · rw [getD_set_ne hia]

/-- Auxiliary: applying operations preserves the number of modules. -/
theorem applyOps_length (ops : List (String × Nat × Nat)) :
    ∀ c : List (List Bool), (applyOps c ops).length = c.length := by
  induction ops with
  | nil =>
    intro c
    rfl
  | cons op ops ih =>
    intro c
    show (applyOps (set_connection c op.2.1 op.2.2 (op.1 == "L")) ops).length = c.length
    rw [ih, set_connection_length]

/-- Auxiliary: applying operations preserves the length of every row. -/
theorem applyOps_row_length (ops : List (String × Nat × Nat)) :
    ∀ (c : List (List Bool)) (k : Nat),
      ((applyOps c ops).getD k []).length = (c.getD k []).length := by
  induction ops with
  | nil =>
    intro c k
    rfl
  | cons op ops ih =>
    intro c k
    show ((applyOps (set_connection c op.2.1 op.2.2 (op.1 == "L")) ops).getD k []).length
      = (c.getD k []).length
    rw [ih, set_connection_row_length]

/-- Auxiliary pointwise description of applying a list of in-range operations
whose values agree with the target matrix: a targeted cell ends at its target
value and every other cell keeps its current value. -/
theorem applyOps_getCell (tgt : List (List Bool)) :
    ∀ (ops : List (String × Nat × Nat)) (c : List (List Bool)),
      (∀ op ∈ ops, op.2.1 < c.length ∧ op.2.2 < (c.getD op.2.1 []).length ∧
        ((op.1 == "L") : Bool) = getCell tgt op.2.1 op.2.2) →
      ∀ a b,
        getCell (applyOps c ops) a b =
          if ops.any (fun op => op.2.1 == a && op.2.2 == b) then getCell tgt a b
          else getCell c a b := by
  intro ops
  induction ops with
  | nil =>
    intro c _ a b
    simp [applyOps]
  | cons op ops ih =>
    intro c hops a b
    have hop := hops op (List.mem_cons_self op ops)
    have hrest : ∀ op2 ∈ ops,
        op2.2.1 < (set_connection c op.2.1 op.2.2 (op.1 == "L")).length ∧
        op2.2.2 < ((set_connection c op.2.1 op.2.2 (op.1 == "L")).getD op2.2.1 []).length ∧
        ((op2.1 == "L") : Bool) = getCell tgt op2.2.1 op2.2.2 := by
      intro op2 h2
      obtain ⟨ha1, ha2, ha3⟩ := hops op2 (List.mem_cons_of_mem op h2)
      refine ⟨?_, ?_, ha3⟩
      · rw [set_connection_length]
        exact ha1
      · rw [set_connection_row_length]
        exact ha2
    have hstep : applyOps c (op :: ops) =
        applyOps (set_connection c op.2.1 op.2.2 (op.1 == "L")) ops := rfl
    rw [hstep, ih _ hrest a b]
    by_cases hany : ops.any (fun op2 => op2.2.1 == a && op2.2.2 == b) = true
    · rw [if_pos hany, if_pos (by simp [List.any_cons, hany])]
    · rw [if_neg hany]
      by_cases hcoord : op.2.1 = a ∧ op.2.2 = b
      · obtain ⟨ha, hb⟩ := hcoord
        rw [if_pos (by simp [List.any_cons, ha, hb])]
        subst ha
        subst hb
        rw [getCell_set_self hop.1 hop.2.1]
        exact hop.2.2
      · have hf : (op.2.1 == a && op.2.2 == b) = false := by
          by_cases h1 : op.2.1 = a
          · have h2 : op.2.2 ≠ b := fun hh => hcoord ⟨h1, hh⟩
            simp [h1, h2]
          · simp [h1]
        rw [if_neg (by simp [List.any_cons, hf, hany])]
        exact getCell_set_other _ hcoord

/-- Auxiliary membership characterization of the specification diff: an
operation is emitted exactly for an in-range differing cell, tagged by the
target value. -/
theorem mem_diffSpec {M O : Nat} {cur tgt : List (List Bool)} {s : String}
    {i j : Nat} :
    (s, i, j) ∈ diffSpec M O cur tgt ↔
      i < M ∧ j < O ∧ getCell cur i j ≠ getCell tgt i j ∧
        s = (if getCell tgt i j then "L" else "U") := by
  unfold diffSpec getCell
  constructor
  · intro h
    rw [List.mem_flatMap] at h
    obtain ⟨i2, hi2, h⟩ := h
    rw [List.mem_filterMap] at h
    obtain ⟨j2, hj2, hg⟩ := h
    by_cases hcond : (cur.getD i2 []).getD j2 false ≠ (tgt.getD i2 []).getD j2 false
    · rw [if_pos hcond] at hg
      simp only [Option.some.injEq, Prod.mk.injEq] at hg
      obtain ⟨hs, hi, hj⟩ := hg
      subst hi
      subst hj
      exact ⟨List.mem_range.1 hi2, List.mem_range.1 hj2, hcond, hs.symm⟩
    · rw [if_neg hcond] at hg
      exact absurd hg (by simp)
  · rintro ⟨hiM, hjO, hne, hs⟩
    rw [List.mem_flatMap]
    refine ⟨i, List.mem_range.2 hiM, ?_⟩
    rw [List.mem_filterMap]
    refine ⟨j, List.mem_range.2 hjO, ?_⟩
    rw [if_pos hne, hs]

/-- Auxiliary extensionality for matrices: equal module counts, equal row
lengths, and equal cells give equal matrices. -/
theorem matrix_ext {m1 m2 : List (List Bool)} (hlen : m1.length = m2.length)
    (hrow : ∀ k, (m1.getD k []).length = (m2.getD k []).length)
    (hcell : ∀ a b, a < m1.length → b < (m1.getD a []).length →
      getCell m1 a b = getCell m2 a b) :
    m1 = m2 := by
  apply List.ext_getElem hlen
  intro i h1 h2
  apply List.ext_getElem
  · have hr := hrow i
    rw [getD_eq_getElem_of_lt h1, getD_eq_getElem_of_lt h2] at hr
    exact hr
  intro j hj1 hj2
  have hc := hcell i j h1 (by rw [getD_eq_getElem_of_lt h1]; exact hj1)
  unfold getCell at hc
  rw [getD_eq_getElem_of_lt h1, getD_eq_getElem_of_lt h2] at hc
  rw [getD_eq_getElem_of_lt hj1, getD_eq_getElem_of_lt hj2] at hc
  exact hc

/-- C8: for any two equally dimensioned, fully populated matrices, applying
every operation of the diff to the current matrix in order — a latch setting
its cell connected, an unlatch setting it disconnected — yields exactly the
target matrix. -/
theorem C8_diff_apply_roundtrip (cur tgt : List (List Bool)) (M O : Nat)
    (hc : cur.length = M) (ht : tgt.length = M)
    (hcr : ∀ r ∈ cur, r.length = O) (htr : ∀ r ∈ tgt, r.length = O) :
    applyOps cur ((commands_of cur tgt).flatten) = tgt := by
  rw [diff_flatten_eq_diffSpec cur tgt M O hc ht hcr htr]
  have hops : ∀ op ∈ diffSpec M O cur tgt, op.2.1 < cur.length ∧
      op.2.2 < (cur.getD op.2.1 []).length ∧
      ((op.1 == "L") : Bool) = getCell tgt op.2.1 op.2.2 := by
    rintro ⟨s, i, j⟩ hmem
    obtain ⟨hiM, hjO, hne, hs⟩ := mem_diffSpec.1 hmem
    refine ⟨hc ▸ hiM, ?_, ?_⟩
    · rw [hcr _ (getD_mem_of_lt (hc ▸ hiM) [])]
      exact hjO
    · subst hs
      cases hgt : getCell tgt i j <;> simp [hgt]
  apply matrix_ext
  · rw [applyOps_length, hc, ht]
  · intro k
    rw [applyOps_row_length]
    by_cases hk : k < M
    · rw [hcr _ (getD_mem_of_lt (hc ▸ hk) []), htr _ (getD_mem_of_lt (ht ▸ hk) [])]
    · rw [getD_eq_default_of_le (by rw [hc]; omega) ([] : List Bool),
        getD_eq_default_of_le (by rw [ht]; omega) ([] : List Bool)]
  · intro a b ha hb
    rw [applyOps_length] at ha
    rw [applyOps_row_length] at hb
    have haM : a < M := hc ▸ ha
    have hbO : b < O := by
      rw [hcr _ (getD_mem_of_lt ha [])] at hb
      exact hb
    rw [applyOps_getCell tgt _ cur hops a b]
    by_cases hdiff : getCell cur a b = getCell tgt a b
    · have hnotany :
          ¬ ((diffSpec M O cur tgt).any (fun op => op.2.1 == a && op.2.2 == b) = true) := by
        intro hany
        obtain ⟨op, hmem, hp⟩ := List.any_eq_true.1 hany
        obtain ⟨s, i, j⟩ := op
        simp only [Bool.and_eq_true, beq_iff_eq] at hp
        obtain ⟨hpi, hpj⟩ := hp
        subst hpi
        subst hpj
        obtain ⟨_, _, hne, _⟩ := mem_diffSpec.1 hmem
        exact hne hdiff
      rw [if_neg hnotany]
      exact hdiff
    · have hany : (diffSpec M O cur tgt).any (fun op => op.2.1 == a && op.2.2 == b) = true :=
        List.any_eq_true.2
          ⟨((if getCell tgt a b then "L" else "U"), a, b),
            mem_diffSpec.2 ⟨haM, hbO, hdiff, rfl⟩, by simp⟩
      rw [if_pos hany]

/-- Witness for C8 at the specification scenario matrices: applying the diff
of the all-disconnected 2 by 2 matrix against `[[true, false], [false, true]]`
reproduces the target. -/
theorem C8_diff_apply_roundtrip_witness :
    ((∀ r ∈ ([[false, false], [false, false]] : List (List Bool)), r.length = 2) ∧
     (∀ r ∈ ([[true, false], [false, true]] : List (List Bool)), r.length = 2)) ∧
    applyOps [[false, false], [false, false]]
        ((commands_of [[false, false], [false, false]] [[true, false], [false, true]]).flatten)
      = [[true, false], [false, true]] :=
  ⟨⟨by decide, by decide⟩,
    C8_diff_apply_roundtrip [[false, false], [false, false]] [[true, false], [false, true]]
      2 2 rfl rfl (by decide) (by decide)⟩
